import Mathlib

/-!
Verification development for the discrete exponential-family engine in
`l2x/synth/distributions.py`: state-space enumeration for the top-k
constraint, exact inference (weights, log-partition, pmf, marginals),
MAP via argmax over the enumeration, the top-k order-statistics MAP and
its batched variant, perturb-and-map with a cached-noise context, and
the score-function gradient estimator.

Numeric model: float tensors are modelled by exact arithmetic — rationals
for the purely order-theoretic/linear paths (MAP, perturb-and-map), reals
for the paths involving `exp`/`log` (pmf, marginals).  Python exceptions
are modelled with `Except PyErr`.
-/

/-- A Python exception surfaced by the code: `ValueError` (e.g.
`factorial()` on a negative argument, `combinations` with negative `r`)
or a failed `assert`. -/
inductive PyErr where
  | valueError : PyErr
  | assertionError : PyErr
deriving DecidableEq

/-- `list(itertools.combinations(l, k))`: all length-`k` sublists of `l`,
in the order itertools emits them (lexicographic by position). -/
def combsList : Nat → List Nat → List (List Nat)
  | 0, _ => [[]]
  | _ + 1, [] => []
  | k + 1, a :: rest => ((combsList k rest).map (a :: ·)) ++ combsList (k + 1) rest

/-- `list(itertools.combinations(range(n), k))` as used by `TopK.states`. -/
def combs (n k : Nat) : List (List Nat) := combsList k (List.range n)

/-- One row of the state matrix: `mat_x[i, combs[i]] = 1.` builds, for the
combination `c`, the length-`m` 0/1 vector with ones exactly at the
positions listed in `c`. -/
def stateOfComb (m : Nat) (c : List Nat) : List ℚ :=
  (List.range m).map (fun i => if i ∈ c then (1 : ℚ) else 0)

/-- The matrix built by `TopK.states` (success path): one 0/1 row per
combination. -/
def statesMat (m k : Nat) : List (List ℚ) := (combs m k).map (stateOfComb m)

theorem mem_combsList {k : Nat} {l : List Nat} {c : List Nat}
    (hc : c ∈ combsList k l) : c.Sublist l ∧ c.length = k := by
  induction l generalizing k c with
  | nil =>
    cases k with
    | zero => simp [combsList] at hc; simp [hc]
    | succ k => simp [combsList] at hc
  | cons a rest ih =>
    cases k with
    | zero => simp [combsList] at hc; simp [hc]
    | succ k =>
      simp only [combsList, List.mem_append, List.mem_map] at hc
      rcases hc with ⟨c', hc', rfl⟩ | hc
      · obtain ⟨hs, hl⟩ := ih hc'
        exact ⟨List.Sublist.cons₂ a hs, by simp [hl]⟩
      · obtain ⟨hs, hl⟩ := ih hc
        exact ⟨hs.trans (List.sublist_cons_self a rest), hl⟩

theorem length_combsList (k : Nat) (l : List Nat) :
    (combsList k l).length = Nat.choose l.length k := by
  induction l generalizing k with
  | nil =>
    cases k with
    | zero => simp [combsList]
    | succ k => simp [combsList]
  | cons a rest ih =>
    cases k with
    | zero => simp [combsList]
    | succ k =>
      simp only [combsList, List.length_append, List.length_map, ih,
        List.length_cons, Nat.choose_succ_succ]

theorem nodup_combsList {k : Nat} {l : List Nat} (hl : l.Nodup) :
    (combsList k l).Nodup := by
  induction l generalizing k with
  | nil =>
    cases k with
    | zero => simp [combsList]
    | succ k => simp [combsList]
  | cons a rest ih =>
    cases k with
    | zero => simp [combsList]
    | succ k =>
      have hrest : rest.Nodup := (List.nodup_cons.mp hl).2
      have hans : a ∉ rest := (List.nodup_cons.mp hl).1
      rw [combsList, List.nodup_append]
      refine ⟨(ih hrest).map (fun x y h => by injection h), ih hrest, ?_⟩
      intro x hx hx'
      simp only [List.mem_map] at hx
      obtain ⟨c', _, rfl⟩ := hx
      have := (mem_combsList hx').1
      exact hans (this.subset (by simp))

theorem mem_combs {m k : Nat} {c : List Nat} (hc : c ∈ combs m k) :
    c.Sublist (List.range m) ∧ c.length = k := by
  have := mem_combsList (l := List.range m) (by simpa [combs] using hc)
  simpa using this

theorem length_combs (m k : Nat) : (combs m k).length = Nat.choose m k := by
  simpa [combs] using length_combsList k (List.range m)

theorem nodup_combs (m k : Nat) : (combs m k).Nodup :=
  nodup_combsList (List.nodup_range _)

theorem combs_nodup_elem {m k : Nat} {c : List Nat} (hc : c ∈ combs m k) :
    c.Nodup :=
  (mem_combs hc).1.nodup (List.nodup_range _)

theorem combs_lt {m k : Nat} {c : List Nat} (hc : c ∈ combs m k) :
    ∀ i ∈ c, i < m := by
  intro i hi
  have := (mem_combs hc).1.subset hi
  simpa using this

/-- A sublist of `range m` is sorted strictly, hence two of them with the
same elements coincide. -/
theorem sublist_range_eq_of_toFinset_eq {m : Nat} {c₁ c₂ : List Nat}
    (h₁ : c₁.Sublist (List.range m)) (h₂ : c₂.Sublist (List.range m))
    (h : c₁.toFinset = c₂.toFinset) : c₁ = c₂ := by
  have hn₁ : c₁.Nodup := h₁.nodup (List.nodup_range _)
  have hn₂ : c₂.Nodup := h₂.nodup (List.nodup_range _)
  have hperm : c₁.Perm c₂ := List.perm_of_nodup_nodup_toFinset_eq hn₁ hn₂ h
  have hs₁ : c₁.Sorted (· ≤ ·) :=
    List.Pairwise.imp le_of_lt (List.Pairwise.sublist h₁ (List.pairwise_lt_range m))
  have hs₂ : c₂.Sorted (· ≤ ·) :=
    List.Pairwise.imp le_of_lt (List.Pairwise.sublist h₂ (List.pairwise_lt_range m))
  exact List.eq_of_perm_of_sorted hperm hs₁ hs₂

theorem stateOfComb_mem_iff {m : Nat} {c : List Nat} {i : Nat} (hi : i < m) :
    (stateOfComb m c).getD i 0 = (if i ∈ c then (1 : ℚ) else 0) := by
  unfold stateOfComb
  rw [List.getD_eq_getElem _ _ (by simpa using hi)]
  simp

theorem stateOfComb_inj {m k : Nat} {c₁ c₂ : List Nat}
    (h₁ : c₁ ∈ combs m k) (h₂ : c₂ ∈ combs m k)
    (h : stateOfComb m c₁ = stateOfComb m c₂) : c₁ = c₂ := by
  apply sublist_range_eq_of_toFinset_eq (mem_combs h₁).1 (mem_combs h₂).1
  ext i
  simp only [List.mem_toFinset]
  constructor
  · intro hi
    have him : i < m := combs_lt h₁ i hi
    have hg := congrArg (fun l => List.getD l i 0) h
    simp only [stateOfComb_mem_iff him] at hg
    by_contra hni
    rw [if_pos hi, if_neg hni] at hg
    exact one_ne_zero hg
  · intro hi
    have him : i < m := combs_lt h₂ i hi
    have hg := congrArg (fun l => List.getD l i 0) h
    simp only [stateOfComb_mem_iff him] at hg
    by_contra hni
    rw [if_neg hni, if_pos hi] at hg
    exact one_ne_zero hg.symm

theorem nodup_statesMat (m k : Nat) : (statesMat m k).Nodup :=
  (nodup_combs m k).map_on (fun _ h₁ _ h₂ h => stateOfComb_inj h₁ h₂ h)

theorem toFinset_inj_on_combs {m k : Nat} {c₁ c₂ : List Nat}
    (h₁ : c₁ ∈ combs m k) (h₂ : c₂ ∈ combs m k)
    (h : c₁.toFinset = c₂.toFinset) : c₁ = c₂ :=
  sublist_range_eq_of_toFinset_eq (mem_combs h₁).1 (mem_combs h₂).1 h

theorem combs_toFinset_card {m k : Nat} {c : List Nat} (hc : c ∈ combs m k) :
    c.toFinset.card = k := by
  rw [List.toFinset_card_of_nodup (combs_nodup_elem hc)]
  exact (mem_combs hc).2

theorem combs_toFinset_subset {m k : Nat} {c : List Nat} (hc : c ∈ combs m k) :
    c.toFinset ⊆ Finset.range m := by
  intro i hi
  rw [List.mem_toFinset] at hi
  exact Finset.mem_range.mpr (combs_lt hc i hi)

/-- Completeness of the enumerator: every `k`-subset of `range m` occurs
among the combinations. -/
theorem combs_complete {m k : Nat} (s : Finset ℕ) (hs : s ⊆ Finset.range m)
    (hcard : s.card = k) : ∃ c ∈ combs m k, c.toFinset = s := by
  classical
  have hnodup : ((combs m k).map List.toFinset).Nodup :=
    (nodup_combs m k).map_on (fun _ h₁ _ h₂ h => toFinset_inj_on_combs h₁ h₂ h)
  set F : Finset (Finset ℕ) := ((combs m k).map List.toFinset).toFinset with hF
  have hFsub : F ⊆ Finset.powersetCard k (Finset.range m) := by
    intro t ht
    rw [hF, List.mem_toFinset, List.mem_map] at ht
    obtain ⟨c, hc, rfl⟩ := ht
    exact Finset.mem_powersetCard.mpr ⟨combs_toFinset_subset hc, combs_toFinset_card hc⟩
  have hFcard : F.card = Nat.choose m k := by
    rw [hF, List.toFinset_card_of_nodup hnodup, List.length_map, length_combs]
  have hEq : F = Finset.powersetCard k (Finset.range m) := by
    apply Finset.eq_of_subset_of_card_le hFsub
    rw [hFcard, Finset.card_powersetCard, Finset.card_range]
  have : s ∈ F := by
    rw [hEq]
    exact Finset.mem_powersetCard.mpr ⟨hs, hcard⟩
  rw [hF, List.mem_toFinset, List.mem_map] at this
  obtain ⟨c, hc, hc'⟩ := this
  exact ⟨c, hc, hc'⟩

theorem countP_range_mem (m : Nat) (c : List Nat) (hc : c.Nodup)
    (hlt : ∀ i ∈ c, i < m) :
    (List.range m).countP (fun i => decide (i ∈ c)) = c.length := by
  classical
  rw [List.countP_eq_length_filter]
  have hfil : ((List.range m).filter (fun i => decide (i ∈ c))).Nodup :=
    List.Nodup.filter _ (List.nodup_range m)
  rw [← List.toFinset_card_of_nodup hfil, ← List.toFinset_card_of_nodup hc]
  congr 1
  ext i
  simp only [List.mem_toFinset, List.mem_filter, List.mem_range, decide_eq_true_eq]
  exact ⟨fun h => h.2, fun h => ⟨hlt i h, h⟩⟩

theorem countP_congr_mem {α : Type} {l : List α} {p q : α → Bool}
    (h : ∀ a ∈ l, p a = q a) : l.countP p = l.countP q := by
  rw [List.countP_eq_length_filter, List.countP_eq_length_filter,
    List.filter_congr h]

theorem countP_range_not_mem (m : Nat) (c : List Nat) (hc : c.Nodup)
    (hlt : ∀ i ∈ c, i < m) :
    (List.range m).countP (fun i => decide (i ∉ c)) = m - c.length := by
  classical
  rw [List.countP_eq_length_filter]
  have hfil : ((List.range m).filter (fun i => decide (i ∉ c))).Nodup :=
    List.Nodup.filter _ (List.nodup_range m)
  rw [← List.toFinset_card_of_nodup hfil]
  have hset : ((List.range m).filter (fun i => decide (i ∉ c))).toFinset =
      Finset.range m \ c.toFinset := by
    ext i
    simp only [List.mem_toFinset, List.mem_filter, List.mem_range,
      Finset.mem_sdiff, Finset.mem_range, decide_eq_true_eq]
  rw [hset, Finset.card_sdiff, Finset.card_range, List.toFinset_card_of_nodup hc]
  intro i hi
  rw [List.mem_toFinset] at hi
  exact Finset.mem_range.mpr (hlt i hi)

theorem statesMat_row {m k : Nat} {r : List ℚ} (hr : r ∈ statesMat m k) :
    r.length = m ∧ r.countP (fun x => decide (x = 1)) = k ∧
      r.countP (fun x => decide (x = 0)) = m - k ∧ (∀ x ∈ r, x = 0 ∨ x = 1) := by
  classical
  rw [statesMat, List.mem_map] at hr
  obtain ⟨c, hc, rfl⟩ := hr
  have hnd := combs_nodup_elem hc
  have hlt := combs_lt hc
  have hlen := (mem_combs hc).2
  refine ⟨by simp [stateOfComb], ?_, ?_, ?_⟩
  · rw [stateOfComb, List.countP_map, ← hlen, ← countP_range_mem m c hnd hlt]
    apply countP_congr_mem
    intro i _
    by_cases hi : i ∈ c <;> simp [Function.comp, hi]
  · rw [stateOfComb, List.countP_map, ← hlen, ← countP_range_not_mem m c hnd hlt]
    apply countP_congr_mem
    intro i _
    by_cases hi : i ∈ c <;> simp [Function.comp, hi]
  · intro x hx
    rw [stateOfComb, List.mem_map] at hx
    obtain ⟨i, _, rfl⟩ := hx
    by_cases hi : i ∈ c <;> simp [hi]

/-- The fields stored by `TopK.__init__` (the advisory `device` hint is
dropped from the model).  `k` is an arbitrary integer because the
constructor stores it without validation. -/
structure TopKEngine where
  m : Nat
  k : Int
deriving DecidableEq

/-- `TopK.__init__(m, k)`: stores the parameters and returns.  There is no
check of `1 ≤ k ≤ m` anywhere in the constructor. -/
def TopK_init (m : Nat) (k : Int) : Except PyErr TopKEngine :=
  .ok { m := m, k := k }

/-- The body of the `TopK.states` property (first access, `_states` not yet
cached), with the Python evaluation order: `itertools.combinations(range(m), k)`
raises `ValueError` for negative `k`; otherwise the assert's right-hand side
`np.math.factorial(m)/(np.math.factorial(k)*np.math.factorial(m-k))` raises
`ValueError` when `m - k < 0`; otherwise the assert compares the enumerated
count against the quotient (Python true division, modelled exactly in `ℚ`);
if it passes, the 0/1 matrix is built and returned. -/
def statesTopK (m : Nat) (k : Int) : Except PyErr (List (List ℚ)) :=
  if k < 0 then .error .valueError
  else if (m : Int) < k then .error .valueError
  else if ((combs m k.toNat).length : ℚ) =
      (Nat.factorial m : ℚ) /
        ((Nat.factorial k.toNat : ℚ) * (Nat.factorial (m - k.toNat) : ℚ)) then
    .ok (statesMat m k.toNat)
  else .error .assertionError

/-- For `k ≤ m` the internal assert passes and `states` returns the matrix. -/
theorem statesTopK_ok {m k : Nat} (hkm : k ≤ m) :
    statesTopK m (k : Int) = .ok (statesMat m k) := by
  have htn : ((k : Int)).toNat = k := rfl
  unfold statesTopK
  rw [if_neg (by simp), if_neg (by simpa using not_lt.mpr hkm),
    if_pos (by rw [htn, length_combs, Nat.cast_choose ℚ hkm]), htn]

/-- One entry of the matrix–vector product `self.states @ theta`. -/
def dotQ (s θ : List ℚ) : ℚ := (List.zipWith (· * ·) s θ).sum

/-- `DiscreteExpFamily.weights(theta) = self.states @ theta`, over the
top-k state matrix (exact rational model of the float computation). -/
def weightsQ (m k : Nat) (θ : List ℚ) : List ℚ :=
  (statesMat m k).map (fun s => dotQ s θ)

/-- Index of the first maximal entry, modelling `torch.argmax` (whose
tie-break among equal maxima is unspecified; the theorems below only rely
on it where the maximum is unique). -/
def argmaxIdx : List ℚ → Nat
  | [] => 0
  | [_] => 0
  | a :: b :: rest =>
    if a < (b :: rest).getD (argmaxIdx (b :: rest)) 0 then
      argmaxIdx (b :: rest) + 1
    else 0

/-- `DiscreteExpFamily.map(theta) = self.states[argmax(self.weights(theta))]`. -/
def mapGeneric (m k : Nat) (θ : List ℚ) : List ℚ :=
  (statesMat m k).getD (argmaxIdx (weightsQ m k θ)) []

/-- `torch.argsort(theta, descending=True)`: the index list
`range(len(theta))` sorted by decreasing value (a stable sort; torch's
tie-break is unspecified, and the theorems below only rely on the sort
where the entries involved are distinct). -/
def argsortDesc (θ : List ℚ) : List Nat :=
  List.insertionSort (fun i j => θ.getD j 0 ≤ θ.getD i 0) (List.range θ.length)

/-- `TopK.map`: a zero vector of length `m` with ones scattered at
`argsort(theta, descending=True)[:k]`. -/
def topkMap (m k : Nat) (θ : List ℚ) : List ℚ :=
  (List.range m).map (fun j => if j ∈ (argsortDesc θ).take k then (1 : ℚ) else 0)

/-- `TopK.map_2d`: row-wise `argsort(..., descending=True)[:, :k]`, then
ones scattered into an all-zero `(batch, m)` matrix at those positions. -/
def topkMap2d (m k : Nat) (θ2d : List (List ℚ)) : List (List ℚ) :=
  let ind1_2d := θ2d.map (fun θ => (argsortDesc θ).take k)
  ind1_2d.map (fun ind1 =>
    (List.range m).map (fun j => if j ∈ ind1 then (1 : ℚ) else 0))

theorem argmaxIdx_lt_length : ∀ (l : List ℚ), l ≠ [] → argmaxIdx l < l.length
  | [], h => absurd rfl h
  | [_], _ => by simp [argmaxIdx]
  | a :: b :: rest, _ => by
    rw [argmaxIdx]
    split
    · have := argmaxIdx_lt_length (b :: rest) (by simp)
      simpa using Nat.succ_lt_succ this
    · simp

theorem getD_le_getD_argmaxIdx :
    ∀ (l : List ℚ) (i : Nat), i < l.length →
      l.getD i 0 ≤ l.getD (argmaxIdx l) 0
  | [], i, h => by simp at h
  | [a], i, h => by
    have : i = 0 := by simpa using Nat.lt_one_iff.mp (by simpa using h)
    simp [this, argmaxIdx]
  | a :: b :: rest, i, h => by
    rw [argmaxIdx]
    split
    case isTrue hlt =>
      cases i with
      | zero => simpa using le_of_lt hlt
      | succ i' =>
        have hi' : i' < (b :: rest).length := by simpa using h
        have := getD_le_getD_argmaxIdx (b :: rest) i' hi'
        simpa using this
    case isFalse hge =>
      cases i with
      | zero => simp
      | succ i' =>
        have hi' : i' < (b :: rest).length := by simpa using h
        have h1 := getD_le_getD_argmaxIdx (b :: rest) i' hi'
        have h2 : (b :: rest).getD (argmaxIdx (b :: rest)) 0 ≤ a := not_lt.mp hge
        simpa using le_trans h1 h2

/-- If an entry strictly dominates all entries at other indices, `argmaxIdx`
returns its index. -/
theorem argmaxIdx_eq_of_unique_max {l : List ℚ} {i : Nat} (hi : i < l.length)
    (hmax : ∀ j, j < l.length → j ≠ i → l.getD j 0 < l.getD i 0) :
    argmaxIdx l = i := by
  have hne : l ≠ [] := by
    intro h
    rw [h] at hi
    simp at hi
  by_contra hda
  have h1 := argmaxIdx_lt_length l hne
  have h2 := getD_le_getD_argmaxIdx l i hi
  have h3 := hmax (argmaxIdx l) h1 hda
  exact absurd h2 (not_le.mpr h3)

theorem argsortDesc_perm (θ : List ℚ) :
    (argsortDesc θ).Perm (List.range θ.length) :=
  List.perm_insertionSort _ _

theorem argsortDesc_nodup (θ : List ℚ) : (argsortDesc θ).Nodup :=
  (argsortDesc_perm θ).nodup_iff.mpr (List.nodup_range _)

theorem argsortDesc_mem {θ : List ℚ} {i : Nat} :
    i ∈ argsortDesc θ ↔ i < θ.length := by
  rw [(argsortDesc_perm θ).mem_iff, List.mem_range]

theorem argsortDesc_length (θ : List ℚ) :
    (argsortDesc θ).length = θ.length := by
  rw [(argsortDesc_perm θ).length_eq, List.length_range]

theorem argsortDesc_sorted (θ : List ℚ) :
    (argsortDesc θ).Sorted (fun i j => θ.getD j 0 ≤ θ.getD i 0) := by
  haveI : IsTotal Nat (fun i j => θ.getD j 0 ≤ θ.getD i 0) :=
    ⟨fun a b => le_total _ _⟩
  haveI : IsTrans Nat (fun i j => θ.getD j 0 ≤ θ.getD i 0) :=
    ⟨fun _ _ _ hab hbc => le_trans hbc hab⟩
  exact List.sorted_insertionSort _ _

/-- Values at the first `k` sorted indices dominate values at the rest. -/
theorem argsortDesc_take_drop {θ : List ℚ} {k i j : Nat}
    (hi : i ∈ (argsortDesc θ).take k) (hj : j ∈ (argsortDesc θ).drop k) :
    θ.getD j 0 ≤ θ.getD i 0 := by
  have hs := argsortDesc_sorted θ
  rw [List.Sorted, ← List.take_append_drop k (argsortDesc θ),
    List.pairwise_append] at hs
  exact hs.2.2 i hi j hj

theorem argsortDesc_take_drop_disjoint (θ : List ℚ) (k : Nat) :
    ((argsortDesc θ).take k).Disjoint ((argsortDesc θ).drop k) := by
  have h := argsortDesc_nodup θ
  rw [← List.take_append_drop k (argsortDesc θ), List.nodup_append] at h
  exact h.2.2

/-- With pairwise-distinct values the domination is strict. -/
theorem argsortDesc_take_drop_lt {θ : List ℚ} (hθ : θ.Nodup) {k i j : Nat}
    (hi : i ∈ (argsortDesc θ).take k) (hj : j ∈ (argsortDesc θ).drop k) :
    θ.getD j 0 < θ.getD i 0 := by
  have hle := argsortDesc_take_drop hi hj
  have hij : i ≠ j := fun h =>
    argsortDesc_take_drop_disjoint θ k hi (h ▸ hj)
  have hil : i < θ.length :=
    argsortDesc_mem.mp ((List.take_sublist _ _).subset hi)
  have hjl : j < θ.length :=
    argsortDesc_mem.mp ((List.drop_sublist _ _).subset hj)
  have hne : θ.getD j 0 ≠ θ.getD i 0 := by
    rw [List.getD_eq_getElem θ 0 hil, List.getD_eq_getElem θ 0 hjl]
    intro hcon
    have := List.nodup_iff_injective_get.mp hθ
      (show θ.get ⟨j, hjl⟩ = θ.get ⟨i, hil⟩ from hcon)
    exact hij (congrArg Fin.val this).symm
  exact lt_of_le_of_ne hle hne

theorem take_argsortDesc_toFinset_subset (θ : List ℚ) (k : Nat) :
    ((argsortDesc θ).take k).toFinset ⊆ Finset.range θ.length := by
  intro i hi
  rw [List.mem_toFinset] at hi
  exact Finset.mem_range.mpr (argsortDesc_mem.mp ((List.take_sublist _ _).subset hi))

theorem take_argsortDesc_toFinset_card {θ : List ℚ} {k : Nat}
    (hk : k ≤ θ.length) : ((argsortDesc θ).take k).toFinset.card = k := by
  have hnd : ((argsortDesc θ).take k).Nodup :=
    (List.take_sublist _ _).nodup (argsortDesc_nodup θ)
  rw [List.toFinset_card_of_nodup hnd, List.length_take, argsortDesc_length]
  exact min_eq_left hk

/-- An in-range index outside the first `k` sorted positions lies among the
remaining sorted positions. -/
theorem mem_drop_of_not_mem_take {θ : List ℚ} {k j : Nat} (hj : j < θ.length)
    (hnt : j ∉ (argsortDesc θ).take k) : j ∈ (argsortDesc θ).drop k := by
  have : j ∈ argsortDesc θ := argsortDesc_mem.mpr hj
  rw [← List.take_append_drop k (argsortDesc θ), List.mem_append] at this
  exact this.resolve_left hnt

theorem zipWith_mul_sum_eq :
    ∀ (s θ : List ℚ), (List.zipWith (· * ·) s θ).sum =
      ∑ i ∈ Finset.range (min s.length θ.length), s.getD i 0 * θ.getD i 0
  | [], θ => by simp
  | a :: s', [] => by simp
  | a :: s', b :: θ' => by
    rw [List.zipWith_cons_cons, List.sum_cons, zipWith_mul_sum_eq s' θ',
      List.length_cons, List.length_cons, Nat.succ_min_succ,
      Finset.sum_range_succ']
    simp [add_comm]

theorem dotQ_stateOfComb {m : Nat} {c : List Nat} (θ : List ℚ)
    (hθ : θ.length = m) (hlt : ∀ i ∈ c, i < m) :
    dotQ (stateOfComb m c) θ = ∑ i ∈ c.toFinset, θ.getD i 0 := by
  classical
  have hslen : (stateOfComb m c).length = m := by simp [stateOfComb]
  rw [dotQ, zipWith_mul_sum_eq, hslen, hθ, min_self]
  have hstep : ∀ i ∈ Finset.range m,
      (stateOfComb m c).getD i 0 * θ.getD i 0 =
        if i ∈ c.toFinset then θ.getD i 0 else 0 := by
    intro i hi
    rw [stateOfComb_mem_iff (Finset.mem_range.mp hi)]
    by_cases hic : i ∈ c
    · simp [hic]
    · simp [hic]
  rw [Finset.sum_congr rfl hstep, Finset.sum_ite_mem]
  congr 1
  rw [Finset.inter_eq_right]
  intro i hi
  rw [List.mem_toFinset] at hi
  exact Finset.mem_range.mpr (hlt i hi)

/-- Strict comparison of sums over equal-cardinality index sets when every
value over `B` is below every value over `A`. -/
theorem sum_lt_sum_of_all_lt {A B : Finset ℕ} (f : ℕ → ℚ)
    (hcard : B.card = A.card) (hA : A.Nonempty)
    (hlt : ∀ a ∈ A, ∀ b ∈ B, f b < f a) :
    ∑ b ∈ B, f b < ∑ a ∈ A, f a := by
  have hB : B.Nonempty := by
    rw [← Finset.card_pos, hcard, Finset.card_pos]
    exact hA
  have h1 : ∑ b ∈ B, f b < ∑ _b ∈ B, A.inf' hA f := by
    apply Finset.sum_lt_sum_of_nonempty hB
    intro b hb
    rw [Finset.lt_inf'_iff]
    intro a ha
    exact hlt a ha b hb
  have h2 : ∑ _b ∈ B, A.inf' hA f = A.card • A.inf' hA f := by
    rw [Finset.sum_const, hcard]
  have h3 : A.card • A.inf' hA f ≤ ∑ a ∈ A, f a :=
    Finset.card_nsmul_le_sum A f _ (fun a ha => Finset.inf'_le f ha)
  calc ∑ b ∈ B, f b < ∑ _b ∈ B, A.inf' hA f := h1
    _ = A.card • A.inf' hA f := h2
    _ ≤ ∑ a ∈ A, f a := h3

/-- The exchange argument: for `θ` with pairwise-distinct entries, the set
of the first `k` descending-sorted indices strictly maximises `∑ θ i` over
all `k`-subsets of the index range. -/
theorem sum_take_argsort_max {θ : List ℚ} (hθ : θ.Nodup) {k : Nat}
    (hk : k ≤ θ.length) (s : Finset ℕ) (hs : s ⊆ Finset.range θ.length)
    (hcard : s.card = k) (hne : s ≠ ((argsortDesc θ).take k).toFinset) :
    ∑ i ∈ s, θ.getD i 0 <
      ∑ i ∈ ((argsortDesc θ).take k).toFinset, θ.getD i 0 := by
  classical
  set T : Finset ℕ := ((argsortDesc θ).take k).toFinset with hT
  have hTcard : T.card = k := take_argsortDesc_toFinset_card hk
  set A : Finset ℕ := T \ s with hA
  set B : Finset ℕ := s \ T with hB
  have hABcard : B.card = A.card := by
    rw [hA, hB]
    have h1 := Finset.card_sdiff_add_card_inter T s
    have h2 := Finset.card_sdiff_add_card_inter s T
    rw [Finset.inter_comm s T] at h2
    omega
  have hAne : A.Nonempty := by
    rw [Finset.nonempty_iff_ne_empty]
    intro hempty
    have hsub : T ⊆ s := by
      rwa [hA, Finset.sdiff_eq_empty_iff_subset] at hempty
    exact hne (Finset.eq_of_subset_of_card_le hsub (by omega)).symm
  have hlt : ∀ a ∈ A, ∀ b ∈ B, θ.getD b 0 < θ.getD a 0 := by
    intro a ha b hb
    rw [hA, Finset.mem_sdiff] at ha
    rw [hB, Finset.mem_sdiff] at hb
    have hat : a ∈ (argsortDesc θ).take k := by
      have := ha.1
      rwa [hT, List.mem_toFinset] at this
    have hbd : b ∈ (argsortDesc θ).drop k := by
      apply mem_drop_of_not_mem_take
      · exact Finset.mem_range.mp (hs hb.1)
      · intro hmem
        exact hb.2 (by rwa [hT, List.mem_toFinset])
    exact argsortDesc_take_drop_lt hθ hat hbd
  have hmain : ∑ b ∈ B, θ.getD b 0 < ∑ a ∈ A, θ.getD a 0 :=
    sum_lt_sum_of_all_lt _ hABcard hAne hlt
  have hsplit1 : ∑ i ∈ s ∩ T, θ.getD i 0 + ∑ i ∈ B, θ.getD i 0 =
      ∑ i ∈ s, θ.getD i 0 := Finset.sum_inter_add_sum_diff s T _
  have hsplit2 : ∑ i ∈ T ∩ s, θ.getD i 0 + ∑ i ∈ A, θ.getD i 0 =
      ∑ i ∈ T, θ.getD i 0 := Finset.sum_inter_add_sum_diff T s _
  rw [Finset.inter_comm s T] at hsplit1
  linarith

theorem weightsQ_length (m k : Nat) (θ : List ℚ) :
    (weightsQ m k θ).length = (combs m k).length := by
  simp [weightsQ, statesMat]

theorem weightsQ_getD {m k : Nat} (θ : List ℚ) {i : Nat}
    (hi : i < (combs m k).length) :
    (weightsQ m k θ).getD i 0 =
      dotQ (stateOfComb m ((combs m k).get ⟨i, hi⟩)) θ := by
  rw [weightsQ, statesMat, List.map_map,
    List.getD_eq_getElem _ _ (by simpa using hi), List.getElem_map]
  rfl

theorem statesMat_getD {m k : Nat} {i : Nat} (hi : i < (combs m k).length) :
    (statesMat m k).getD i [] = stateOfComb m ((combs m k).get ⟨i, hi⟩) := by
  rw [statesMat, List.getD_eq_getElem _ _ (by simpa using hi), List.getElem_map]
  rfl

/-- Order-statistics MAP agrees with argmax-over-enumeration MAP whenever
the coordinates of `θ` are pairwise distinct. -/
theorem topkMap_eq_mapGeneric {m k : Nat} (hkm : k ≤ m) {θ : List ℚ}
    (hlen : θ.length = m) (hnd : θ.Nodup) :
    topkMap m k θ = mapGeneric m k θ := by
  classical
  have hkθ : k ≤ θ.length := by rw [hlen]; exact hkm
  have hTsub : ((argsortDesc θ).take k).toFinset ⊆ Finset.range m := by
    rw [← hlen]
    exact take_argsortDesc_toFinset_subset θ k
  have hTcard : ((argsortDesc θ).take k).toFinset.card = k :=
    take_argsortDesc_toFinset_card hkθ
  obtain ⟨cstar, hcs, hcsT⟩ := combs_complete _ hTsub hTcard
  obtain ⟨⟨i, hi⟩, hgi⟩ := List.mem_iff_get.mp hcs
  have hwi : (weightsQ m k θ).getD i 0 =
      ∑ x ∈ ((argsortDesc θ).take k).toFinset, θ.getD x 0 := by
    rw [weightsQ_getD θ hi, hgi, dotQ_stateOfComb θ hlen (combs_lt hcs), hcsT]
  have hmax : ∀ j, j < (weightsQ m k θ).length → j ≠ i →
      (weightsQ m k θ).getD j 0 < (weightsQ m k θ).getD i 0 := by
    intro j hj hji
    rw [weightsQ_length] at hj
    have hcjm : (combs m k).get ⟨j, hj⟩ ∈ combs m k := List.get_mem _ _ _
    rw [weightsQ_getD θ hj, hwi,
      dotQ_stateOfComb θ hlen (combs_lt hcjm)]
    apply sum_take_argsort_max hnd hkθ
    · rw [hlen]
      exact combs_toFinset_subset hcjm
    · exact combs_toFinset_card hcjm
    · intro hTeq
      apply hji
      have hceq : (combs m k).get ⟨j, hj⟩ = cstar :=
        toFinset_inj_on_combs hcjm hcs (hTeq.trans hcsT.symm)
      have := (List.Nodup.get_inj_iff (nodup_combs m k)).mp (hceq.trans hgi.symm)
      exact congrArg Fin.val this
  have hargmax : argmaxIdx (weightsQ m k θ) = i :=
    argmaxIdx_eq_of_unique_max (by rw [weightsQ_length]; exact hi) hmax
  rw [mapGeneric, hargmax, statesMat_getD hi, hgi, topkMap, stateOfComb]
  apply List.map_eq_map_iff.mpr
  intro j _
  have hmem : j ∈ (argsortDesc θ).take k ↔ j ∈ cstar := by
    rw [← List.mem_toFinset, ← List.mem_toFinset (l := cstar), hcsT]
  by_cases hj : j ∈ (argsortDesc θ).take k
  · rw [if_pos hj, if_pos (hmem.mp hj)]
  · rw [if_neg hj, if_neg (fun hcontra => hj (hmem.mpr hcontra))]

theorem topkMap2d_length (m k : Nat) (θ2d : List (List ℚ)) :
    (topkMap2d m k θ2d).length = θ2d.length := by
  simp [topkMap2d]

/-- C1: for the top-k specialization with `1 ≤ k ≤ m` and every length-`m`
rational vector `θ` with pairwise-distinct coordinates, the state vector
returned by the order-statistics map (`TopK.map`) equals the state vector
returned by the generic argmax-over-enumerated-weights map
(`DiscreteExpFamily.map`). -/
theorem topk_map_eq_generic_map (m k : Nat) (_hk1 : 1 ≤ k) (hkm : k ≤ m)
    (θ : List ℚ) (hlen : θ.length = m) (hnd : θ.Nodup) :
    topkMap m k θ = mapGeneric m k θ :=
  topkMap_eq_mapGeneric hkm hlen hnd

theorem topk_map_eq_generic_map_witness :
    1 ≤ 2 ∧ 2 ≤ 3 ∧ ([1, 3, 2] : List ℚ).length = 3 ∧
      ([1, 3, 2] : List ℚ).Nodup ∧
      topkMap 3 2 [1, 3, 2] = mapGeneric 3 2 [1, 3, 2] :=
  ⟨by decide, by decide, rfl, by decide,
    topk_map_eq_generic_map 3 2 (by decide) (by decide) [1, 3, 2] rfl (by decide)⟩

/-- C2: for `1 ≤ k ≤ m` the enumerator's matrix (returned by the `states`
property, whose internal assert passes) has exactly `C(m, k)` rows, every
row is a length-`m` 0/1 vector with exactly `k` ones and `m − k` zeros,
and the rows are pairwise distinct. -/
theorem topk_states_enumeration (m k : Nat) (_hk1 : 1 ≤ k) (hkm : k ≤ m) :
    statesTopK m (k : Int) = .ok (statesMat m k) ∧
    (statesMat m k).length = Nat.choose m k ∧
    (∀ r ∈ statesMat m k, r.length = m ∧
      r.countP (fun x => decide (x = 1)) = k ∧
      r.countP (fun x => decide (x = 0)) = m - k ∧
      ∀ x ∈ r, x = 0 ∨ x = 1) ∧
    (statesMat m k).Nodup :=
  ⟨statesTopK_ok hkm, by simp [statesMat, length_combs],
    fun _ hr => statesMat_row hr, nodup_statesMat m k⟩

theorem topk_states_enumeration_witness :
    1 ≤ 2 ∧ 2 ≤ 3 ∧
      (statesTopK 3 (2 : Int) = .ok (statesMat 3 2) ∧
       (statesMat 3 2).length = Nat.choose 3 2 ∧
       (∀ r ∈ statesMat 3 2, r.length = 3 ∧
         r.countP (fun x => decide (x = 1)) = 2 ∧
         r.countP (fun x => decide (x = 0)) = 3 - 2 ∧
         ∀ x ∈ r, x = 0 ∨ x = 1) ∧
       (statesMat 3 2).Nodup) :=
  ⟨by decide, by decide, topk_states_enumeration 3 2 (by decide) (by decide)⟩

/-- C6: row `i` of the batched MAP (`TopK.map_2d`) equals the
single-instance MAP (`TopK.map`) applied to row `i` of the input batch. -/
theorem topk_map2d_rowwise (m k : Nat) (θ2d : List (List ℚ)) (i : Nat)
    (h : i < (topkMap2d m k θ2d).length) (h2 : i < θ2d.length) :
    (topkMap2d m k θ2d).get ⟨i, h⟩ = topkMap m k (θ2d.get ⟨i, h2⟩) := by
  rw [List.get_eq_getElem, List.get_eq_getElem]
  simp only [topkMap2d, List.map_map, List.getElem_map]
  rfl

theorem topk_map2d_rowwise_witness :
    (topkMap2d 2 1 [[1, 2]]).get ⟨0, by simp [topkMap2d]⟩ =
      topkMap 2 1 (([[1, 2]] : List (List ℚ)).get ⟨0, by simp⟩) :=
  topk_map2d_rowwise 2 1 [[1, 2]] 0 (by simp [topkMap2d]) (by simp)

/-- One entry of `states @ theta` over the reals. -/
noncomputable def dotR (s θ : List ℝ) : ℝ := (List.zipWith (· * ·) s θ).sum

/-- `DiscreteExpFamily.weights(theta)` for an arbitrary enumerated state
matrix (the base class is abstract in `states`). -/
noncomputable def weightsG (states : List (List ℝ)) (θ : List ℝ) : List ℝ :=
  states.map (fun s => dotR s θ)

/-- `DiscreteExpFamily.log_partition(theta) = log(sum(exp(weights(theta))))`. -/
noncomputable def log_partitionG (states : List (List ℝ)) (θ : List ℝ) : ℝ :=
  Real.log (((weightsG states θ).map Real.exp).sum)

/-- `DiscreteExpFamily.pmf(theta) = exp(weights(theta) - log_partition(theta))`. -/
noncomputable def pmfG (states : List (List ℝ)) (θ : List ℝ) : List ℝ :=
  (weightsG states θ).map (fun w => Real.exp (w - log_partitionG states θ))

/-- `DiscreteExpFamily.marginals(theta) = self.pmf(theta) @ self.states`;
`m` is the engine's dimensionality (the number of columns of `states`). -/
noncomputable def marginalsG (m : Nat) (states : List (List ℝ)) (θ : List ℝ) :
    List ℝ :=
  (List.range m).map (fun j =>
    (List.zipWith (fun p s => p * s.getD j 0) (pmfG states θ) states).sum)

/-- `TopK.states` after `torch.from_numpy(...).float()`: the 0/1 matrix
cast to reals. -/
noncomputable def statesR (m k : Nat) : List (List ℝ) :=
  (statesMat m k).map (fun r => r.map (fun x => (x : ℝ)))

/-- The caller-owned, duck-typed context object.  An `Option` field models
`hasattr`; `settable` models whether attribute assignment on the object
succeeds or raises `AttributeError`. -/
structure Ctx (α : Type) where
  eps : Option (List α)
  sample : Option (List α)
  settable : Bool

/-- `hasattr(ctx, 'sample')`, with `ctx = None` included. -/
def hasSample {α : Type} (ctx : Option (Ctx α)) : Bool :=
  match ctx with
  | none => false
  | some c => c.sample.isSome

/-- The closure `_glp(theta, ctx)` returned by
`DiscreteExpFamily.grad_log_p(mu_f)`, with `mu_f` modelled as a
possibly-raising function.  The Python statement order is kept:
`mu_theta = mu_f(theta)` is evaluated first, then
`assert hasattr(ctx, 'sample')`, then `ctx.sample - mu_theta` is
returned.  The pair carries the context through unchanged, making the
absence of mutation part of the model. -/
noncomputable def glp (mu_f : List ℝ → Except PyErr (List ℝ)) (θ : List ℝ)
    (ctx : Option (Ctx ℝ)) : Except PyErr (List ℝ) × Option (Ctx ℝ) :=
  match mu_f θ with
  | .error e => (.error e, ctx)
  | .ok muθ =>
    match ctx with
    | none => (.error .assertionError, ctx)
    | some c =>
      match c.sample with
      | none => (.error .assertionError, ctx)
      | some z => (.ok (List.zipWith (fun a b => a - b) z muθ), ctx)

/-- The default `mu_f = self.marginals` that `grad_log_p` installs when no
alternative is supplied, for the top-k engine: total, never raises. -/
noncomputable def defaultMuTopK (m k : Nat) : List ℝ → Except PyErr (List ℝ) :=
  fun θ => .ok (marginalsG m (statesR m k) θ)

/-- The closure `_pam(theta, ctx)` returned by
`DiscreteExpFamily.perturb_and_map(noise_f)` for the top-k engine (whose
overriding `map` is the order-statistics one).  `noise i` is the scalar
produced by the `i`-th `noise_f()` call of the invocation; a cached
`ctx.eps` is reused without drawing; a fresh draw is stored on a settable
context, while `AttributeError` on storing is caught and ignored. -/
def pamTopK (m k : Nat) (noise : Nat → ℚ) (θ : List ℚ)
    (ctx : Option (Ctx ℚ)) : List ℚ × Option (Ctx ℚ) :=
  match ctx with
  | some c =>
    match c.eps with
    | some eps => (topkMap m k (List.zipWith (· + ·) θ eps), some c)
    | none =>
      let eps := (List.range m).map noise
      let c' := if c.settable then { c with eps := some eps } else c
      (topkMap m k (List.zipWith (· + ·) θ eps), some c')
  | none =>
    let eps := (List.range m).map noise
    (topkMap m k (List.zipWith (· + ·) θ eps), none)

theorem list_sum_map_div (l : List ℝ) (f : ℝ → ℝ) (c : ℝ) :
    (l.map (fun x => f x / c)).sum = (l.map f).sum / c := by
  induction l with
  | nil => simp
  | cons a t ih => simp [ih, add_div]

theorem sum_exp_weights_pos (states : List (List ℝ)) (θ : List ℝ)
    (hne : states ≠ []) : 0 < ((weightsG states θ).map Real.exp).sum := by
  apply List.sum_pos
  · intro x hx
    rw [List.mem_map] at hx
    obtain ⟨w, _, rfl⟩ := hx
    exact Real.exp_pos w
  · simp [weightsG, hne]

theorem marginalsG_length (m : Nat) (states : List (List ℝ)) (θ : List ℝ) :
    (marginalsG m states θ).length = m := by
  simp [marginalsG]

/-- C3: `pmf(θ)` equals `exp(weights(θ) − log_partition(θ))` entrywise,
every entry is non-negative, and under exact real arithmetic the entries
sum to exactly 1, for any engine with a non-empty enumerated state space. -/
theorem pmf_normalized (states : List (List ℝ)) (θ : List ℝ)
    (hne : states ≠ []) :
    pmfG states θ =
      (weightsG states θ).map
        (fun w => Real.exp (w - log_partitionG states θ)) ∧
    (∀ p ∈ pmfG states θ, 0 ≤ p) ∧
    (pmfG states θ).sum = 1 := by
  refine ⟨rfl, ?_, ?_⟩
  · intro p hp
    rw [pmfG, List.mem_map] at hp
    obtain ⟨w, _, rfl⟩ := hp
    exact (Real.exp_pos _).le
  · have hpos := sum_exp_weights_pos states θ hne
    have hmapeq : (weightsG states θ).map
        (fun w => Real.exp (w - log_partitionG states θ)) =
        (weightsG states θ).map
          (fun w => Real.exp w / ((weightsG states θ).map Real.exp).sum) := by
      apply List.map_eq_map_iff.mpr
      intro w _
      rw [Real.exp_sub, log_partitionG, Real.exp_log hpos]
    rw [pmfG, hmapeq, list_sum_map_div, div_self (ne_of_gt hpos)]

theorem pmf_normalized_witness :
    ([[1], [0]] : List (List ℝ)) ≠ [] ∧
      (pmfG [[1], [0]] [0] =
        (weightsG [[1], [0]] [0]).map
          (fun w => Real.exp (w - log_partitionG [[1], [0]] [0])) ∧
       (∀ p ∈ pmfG [[1], [0]] [0], 0 ≤ p) ∧
       (pmfG [[1], [0]] [0]).sum = 1) :=
  ⟨by simp, pmf_normalized [[1], [0]] [0] (by simp)⟩

/-- C4: with the default marginal function and a context whose `sample`
field caches the state vector `z`, the gradient-estimator closure returns
exactly `z − marginals(θ)` and leaves the context unchanged; when `z` has
length `m` the result is a length-`m` vector. -/
theorem grad_log_p_default_eq (m k : Nat) (θ : List ℝ) (c : Ctx ℝ)
    (z : List ℝ) (hz : c.sample = some z) (hzlen : z.length = m) :
    glp (defaultMuTopK m k) θ (some c) =
      (.ok (List.zipWith (fun a b => a - b) z (marginalsG m (statesR m k) θ)),
        some c) ∧
    (List.zipWith (fun a b => a - b) z
      (marginalsG m (statesR m k) θ)).length = m := by
  constructor
  · simp [glp, defaultMuTopK, hz]
  · rw [List.length_zipWith, hzlen, marginalsG_length, min_self]

theorem grad_log_p_default_eq_witness :
    Ctx.sample ⟨none, some [1], true⟩ = some ([1] : List ℝ) ∧
      ([1] : List ℝ).length = 1 ∧
      (glp (defaultMuTopK 1 1) [0] (some ⟨none, some [1], true⟩) =
        (.ok (List.zipWith (fun a b => a - b) [1]
          (marginalsG 1 (statesR 1 1) [0])), some ⟨none, some [1], true⟩) ∧
       (List.zipWith (fun a b => a - b) ([1] : List ℝ)
         (marginalsG 1 (statesR 1 1) [0])).length = 1) :=
  ⟨rfl, rfl, grad_log_p_default_eq 1 1 [0] ⟨none, some [1], true⟩ [1] rfl rfl⟩

/-- C5: calling the gradient-estimator closure with a context lacking the
`sample` field — including `ctx = None` — surfaces the assertion error
instead of returning a value. -/
theorem grad_log_p_requires_sample (m k : Nat) (θ : List ℝ)
    (ctx : Option (Ctx ℝ)) (h : hasSample ctx = false) :
    (glp (defaultMuTopK m k) θ ctx).1 = .error .assertionError := by
  match ctx with
  | none => simp [glp, defaultMuTopK]
  | some c =>
    cases hc : c.sample with
    | none => simp [glp, defaultMuTopK, hc]
    | some z => simp [hasSample, hc] at h

theorem grad_log_p_requires_sample_witness :
    hasSample (none : Option (Ctx ℝ)) = false ∧
      (glp (defaultMuTopK 1 1) [0] none).1 = .error .assertionError :=
  ⟨rfl, grad_log_p_requires_sample 1 1 [0] none rfl⟩

/-- C10: on a context lacking `sample`, `mu_f(θ)` is still evaluated
before the precondition check — an error raised by `mu_f` propagates
as-is, and only when `mu_f` returns normally does the assertion error
surface — and in both cases the context comes back unchanged. -/
theorem grad_log_p_mu_evaluated_first
    (mu_f : List ℝ → Except PyErr (List ℝ)) (θ : List ℝ)
    (ctx : Option (Ctx ℝ)) (h : hasSample ctx = false) :
    (∀ e, mu_f θ = .error e → glp mu_f θ ctx = (.error e, ctx)) ∧
    (∀ mu, mu_f θ = .ok mu →
      glp mu_f θ ctx = (.error .assertionError, ctx)) := by
  constructor
  · intro e he
    simp [glp, he]
  · intro mu hmu
    match ctx with
    | none => simp [glp, hmu]
    | some c =>
      cases hc : c.sample with
      | none => simp [glp, hmu, hc]
      | some z => simp [hasSample, hc] at h

theorem grad_log_p_mu_evaluated_first_witness :
    hasSample (none : Option (Ctx ℝ)) = false ∧
      ((∀ e, (fun _ : List ℝ =>
          (.error .valueError : Except PyErr (List ℝ))) [] = .error e →
          glp (fun _ => .error .valueError) [] none = (.error e, none)) ∧
       (∀ mu, (fun _ : List ℝ =>
          (.error .valueError : Except PyErr (List ℝ))) [] = .ok mu →
          glp (fun _ => .error .valueError) [] none =
            (.error .assertionError, none))) :=
  ⟨rfl, grad_log_p_mu_evaluated_first (fun _ => .error .valueError) [] none rfl⟩

/-- C7: a context already carrying a cached `eps` makes the
perturb-and-map closure deterministic — the noise stream is never
consulted, the context comes back unchanged, and the returned state
vector is `map(θ + eps)`, so two calls with the same `(θ, ctx)` return
identical state vectors; a fresh settable context receives the drawn
length-`m` noise vector on `ctx.eps`, and exactly that vector perturbs
`θ`. -/
theorem perturb_and_map_ctx (m k : Nat) (θ : List ℚ) :
    (∀ (noise noise' : Nat → ℚ) (c : Ctx ℚ) (e : List ℚ), c.eps = some e →
      pamTopK m k noise θ (some c) = pamTopK m k noise' θ (some c) ∧
      pamTopK m k noise θ (some c) =
        (topkMap m k (List.zipWith (· + ·) θ e), some c)) ∧
    (∀ (noise : Nat → ℚ) (c : Ctx ℚ), c.eps = none → c.settable = true →
      (pamTopK m k noise θ (some c)).2 =
        some { c with eps := some ((List.range m).map noise) } ∧
      ((List.range m).map noise).length = m ∧
      (pamTopK m k noise θ (some c)).1 =
        topkMap m k (List.zipWith (· + ·) θ ((List.range m).map noise))) := by
  constructor
  · intro noise noise' c e he
    constructor <;> simp [pamTopK, he]
  · intro noise c he hs
    refine ⟨?_, by simp, ?_⟩ <;> simp [pamTopK, he, hs]

theorem perturb_and_map_ctx_witness :
    (pamTopK 1 1 (fun _ => 0) [] (some ⟨some [5], none, true⟩) =
       pamTopK 1 1 (fun _ => 7) [] (some ⟨some [5], none, true⟩) ∧
     pamTopK 1 1 (fun _ => 0) [] (some ⟨some [5], none, true⟩) =
       (topkMap 1 1 (List.zipWith (· + ·) [] [5]),
         some ⟨some [5], none, true⟩)) ∧
    ((pamTopK 1 1 (fun _ => 0) [] (some ⟨none, none, true⟩)).2 =
       some ⟨some ((List.range 1).map (fun _ => (0 : ℚ))), none, true⟩ ∧
     ((List.range 1).map (fun _ => (0 : ℚ))).length = 1 ∧
     (pamTopK 1 1 (fun _ => 0) [] (some ⟨none, none, true⟩)).1 =
       topkMap 1 1 (List.zipWith (· + ·) []
         ((List.range 1).map (fun _ => (0 : ℚ))))) :=
  ⟨(perturb_and_map_ctx 1 1 []).1 (fun _ => 0) (fun _ => 7)
      ⟨some [5], none, true⟩ [5] rfl,
   (perturb_and_map_ctx 1 1 []).2 (fun _ => 0) ⟨none, none, true⟩ rfl rfl⟩

/-- C8 counterexample: with `m = 3`, `k = 5` — parameters violating
`1 ≤ k ≤ m` — the constructor does not fail; it returns an engine
instance, contradicting "rejected at construction time". -/
theorem topk_init_accepts_invalid :
    (3 : Int) < 5 ∧ TopK_init 3 5 = .ok { m := 3, k := 5 } :=
  ⟨by decide, rfl⟩

/-- C8 (amended): constructing the top-k engine performs no validation of
the constraint parameters — for every `(m, k)`, including `k > m` and
`k ≤ 0`, the constructor returns an engine instance rather than failing. -/
theorem topk_init_always_succeeds (m : Nat) (k : Int) :
    TopK_init m k = .ok { m := m, k := k } := rfl

/-- C9: construction succeeds for any integer `k` without validation, and
for `k > m` the failure surfaces only when the `states` property is first
evaluated, where the closed-form count's `factorial(m - k)` on a negative
argument raises `ValueError`. -/
theorem topk_lazy_validation :
    (∀ (m : Nat) (k : Int), TopK_init m k = .ok { m := m, k := k }) ∧
    (∀ (m : Nat) (k : Int), (m : Int) < k →
      statesTopK m k = .error .valueError) := by
  constructor
  · intro m k
    rfl
  · intro m k h
    unfold statesTopK
    rw [if_neg (by omega), if_pos h]

theorem topk_lazy_validation_witness :
    TopK_init 2 5 = .ok { m := 2, k := 5 } ∧ (2 : Int) < 5 ∧
      statesTopK 2 5 = .error .valueError :=
  ⟨topk_lazy_validation.1 2 5, by decide,
    topk_lazy_validation.2 2 5 (by decide)⟩
